import Mathlib

/-!
Shallow embedding of the MIDI relay server (`server.js`, served alongside the
React frontend).  The embedded fragment covers: the per-client latency
estimator and adaptive buffer sizer, the global sorted playback queue, the
dispatcher loop with its late-drop policy, and the two ingestion lanes
(`handlePerformancePacket` for the WebRTC performance lane and the
WebSocket `message` handler for the immediate lane).

Modelling conventions:
* Wall-clock milliseconds and all JS numbers that matter here are integers;
  they are modelled as `Int`.  `Math.round(p95 + 15)` is the identity because
  every latency sample is an integer difference of integer clocks.
* JS `x || d` on a numeric field (0 is falsy) is `orDefault x d`.
* `JSON.parse` failure is modelled by an `Option` payload: `none` is a
  datagram whose payload is not valid JSON.
* `Math.floor((p / 100) * (len - 1))` is modelled as `(p * (len - 1)) / 100`
  in `Nat`; for `p = 95` and `len ≤ 200` (the window is trimmed to 200) the
  double-precision computation agrees with the exact rational one.
* `Array.prototype.sort` with comparator `(a, b) => a - b` sorts ascending;
  on integers any correct ascending sort produces the same list, modelled
  with `List.insertionSort`.
-/

/-- JS `x || d` for a numeric field: `0` is falsy and replaced by `d`. -/
def orDefault (x d : Int) : Int := if x = 0 then d else x

/-- Payload of a scheduled event, as built by `handlePerformancePacket`
(the `type` tag together with the kind-specific fields). -/
inductive EvData where
  | noteOn (channel note velocity : Int)
  | noteOff (channel note : Int)
  | cc (channel control value : Int)
  | program (channel prog : Int)
deriving DecidableEq

/-- An element of `playbackQueue`: `{ playAt, type, ...payload }`. -/
structure Event where
  playAt : Int
  data : EvData
deriving DecidableEq

/-- A call into the MIDI sink (`sendNoteOn` / `sendNoteOff` /
`sendControlChange` / `sendProgramChange`), channels 1-based as at the
call sites (the sink itself subtracts one at the device boundary). -/
inductive MidiMsg where
  | note_on (channel note velocity : Int)
  | note_off (channel note velocity : Int)
  | control_change (channel control value : Int)
  | program_change (channel program : Int)
deriving DecidableEq

def LATE_DROP_MS : Int := 50

def SAFETY_MARGIN_MS : Int := 15

/-- The dispatcher's `switch (evt.type)` body: which sink call a queue
event produces (`evt.channel || 1`, `evt.velocity || 100` defaults). -/
def emit (e : Event) : MidiMsg :=
  match e.data with
  | .noteOn ch n v => .note_on (orDefault ch 1) n (orDefault v 100)
  | .noteOff ch n => .note_off (orDefault ch 1) n 0
  | .cc ch c v => .control_change (orDefault ch 1) c v
  | .program ch p => .program_change (orDefault ch 1) p

/-- `percentile(arr, p)`: 0 on an empty array, otherwise the element at
index `Math.floor((p/100)*(len-1))` of the ascending-sorted copy. -/
def percentile (arr : List Int) (p : Nat) : Int :=
  if arr.length = 0 then 0
  else (List.insertionSort (fun a b : Int => a ≤ b) arr).getD
    ((p * (arr.length - 1)) / 100) 0

/-- The scan of `insertEvent` on the reversed queue: walk from the tail of
the queue past every element with `playAt > evt.playAt`, then splice the
new event in. -/
def insertRevAux (e : Event) : List Event → List Event
  | [] => [e]
  | x :: rest => if x.playAt > e.playAt then x :: insertRevAux e rest else e :: x :: rest

/-- `insertEvent(evt)`: sorted insert by `playAt`, scanning from the end of
the array and splicing after the last element with `playAt ≤ evt.playAt`. -/
def insertEvent (q : List Event) (e : Event) : List Event :=
  (insertRevAux e q.reverse).reverse

/-- One wake of the dispatcher loop at wall clock `now`:
`while (queue.length && queue[0].playAt <= now)` shift the head; events
overdue by more than `LATE_DROP_MS` are dropped (`continue`), the others are
dispatched.  Returns (remaining queue, dispatched events in order). -/
def tickLoop : List Event → Int → List Event × List Event
  | [], _ => ([], [])
  | e :: rest, now =>
    if e.playAt ≤ now then
      if now - e.playAt > LATE_DROP_MS then tickLoop rest now
      else ((tickLoop rest now).1, e :: (tickLoop rest now).2)
    else (e :: rest, [])

/-- The sink calls made during one dispatcher wake, in order. -/
def dispatcherSink (q : List Event) (now : Int) : List MidiMsg :=
  ((tickLoop q now).2).map emit

/-- The `type` tag of a performance datagram; `other` stands for any string
not matched by the `switch` in `handlePerformancePacket`. -/
inductive PerfType where
  | noteOn
  | noteOff
  | controlChange
  | programChange
  | other
deriving DecidableEq

/-- A parsed performance datagram.  `timestamp` is `none` when
`typeof obj.timestamp !== 'number'`. -/
structure PerfPacket where
  timestamp : Option Int
  type : PerfType
  channel : Int
  note : Int
  velocity : Int
  control : Int
  value : Int
  program : Int
deriving DecidableEq

/-- Server state relevant to one client: the client record's
`latencyHistory`, `bufferSizeMs` and `lastSeen`, the global
`playbackQueue`, and the two lane counters. -/
structure ServerState where
  latencyHistory : List Int
  bufferSizeMs : Int
  lastSeen : Option Int
  playbackQueue : List Event
  wsImmediate : Nat
  rtcPerf : Nat
deriving DecidableEq

/-- A freshly created client record (`ensureClient`): empty latency
history, `bufferSizeMs: 40`, `lastSeen: null`; empty queue, zero counters. -/
def initState : ServerState :=
  { latencyHistory := []
    bufferSizeMs := 40
    lastSeen := none
    playbackQueue := []
    wsImmediate := 0
    rtcPerf := 0 }

/-- `if (c.latencyHistory.length > 200) c.latencyHistory.splice(0, c.latencyHistory.length - 200)`:
keep only the most recent 200 samples. -/
def trimWindow (w : List Int) : List Int :=
  if w.length > 200 then w.drop (w.length - 200) else w

/-- `handlePerformancePacket(c, msg)` at wall clock `now`.  `lastSeen` and
the `rtcPerf` counter are updated before parsing; a parse failure
(`parsed = none`) returns with no further effect.  Otherwise: record
`latency = max(0, now - ts)`, trim the window to 200, recompute
`bufferSizeMs = clamp(p95 + 15, 10, 300)`, and enqueue the event(s) at
`playAt = ts + bufferSizeMs` according to the packet type. -/
def handlePerformancePacket (st : ServerState) (parsed : Option PerfPacket)
    (now : Int) : ServerState :=
  let st := { st with lastSeen := some now, rtcPerf := st.rtcPerf + 1 }
  match parsed with
  | none => st
  | some obj =>
    let ts := obj.timestamp.getD now
    let latency := max 0 (now - ts)
    let hist := trimWindow (st.latencyHistory ++ [latency])
    let p95 := percentile hist 95
    let buf := max 10 (min 300 (p95 + SAFETY_MARGIN_MS))
    let st := { st with latencyHistory := hist, bufferSizeMs := buf }
    let playAt := ts + buf
    match obj.type with
    | .noteOn =>
      let q1 := insertEvent st.playbackQueue
        ⟨playAt, .noteOn (orDefault obj.channel 1) obj.note (orDefault obj.velocity 100)⟩
      let q2 := insertEvent q1 ⟨playAt + 800, .noteOff (orDefault obj.channel 1) obj.note⟩
      { st with playbackQueue := q2 }
    | .noteOff =>
      { st with playbackQueue :=
          insertEvent st.playbackQueue ⟨playAt, .noteOff (orDefault obj.channel 1) obj.note⟩ }
    | .controlChange =>
      { st with playbackQueue :=
          insertEvent st.playbackQueue ⟨playAt, .cc (orDefault obj.channel 1) obj.control obj.value⟩ }
    | .programChange =>
      { st with playbackQueue :=
          insertEvent st.playbackQueue ⟨playAt, .program (orDefault obj.channel 1) obj.program⟩ }
    | .other => st

/-- The `type` tag of a signaling-channel message; `other` stands for the
non-MIDI cases (`transport`, `client-hello`, WebRTC signaling, unknown). -/
inductive WsType where
  | noteOn
  | noteOff
  | controlChange
  | programChange
  | other
deriving DecidableEq

/-- A parsed signaling-channel (immediate lane) message. -/
structure WsMessage where
  type : WsType
  channel : Int
  note : Int
  velocity : Int
  control : Int
  value : Int
  program : Int
deriving DecidableEq

/-- The `ws.on('message')` handler restricted to its effect on the modelled
state: a parse failure is a silent drop; the four immediate-lane MIDI cases
bump `wsImmediate` and call the sink synchronously (`channel || 1`,
`velocity || 127` for noteOn); every other case leaves the modelled state
alone.  Returns (new state, sink calls). -/
def handleWsMessage (st : ServerState) (parsed : Option WsMessage) :
    ServerState × List MidiMsg :=
  match parsed with
  | none => (st, [])
  | some m =>
    match m.type with
    | .noteOn =>
      ({ st with wsImmediate := st.wsImmediate + 1 },
        [.note_on (orDefault m.channel 1) m.note (orDefault m.velocity 127)])
    | .noteOff =>
      ({ st with wsImmediate := st.wsImmediate + 1 },
        [.note_off (orDefault m.channel 1) m.note 0])
    | .controlChange =>
      ({ st with wsImmediate := st.wsImmediate + 1 },
        [.control_change (orDefault m.channel 1) m.control m.value])
    | .programChange =>
      ({ st with wsImmediate := st.wsImmediate + 1 },
        [.program_change (orDefault m.channel 1) m.program])
    | .other => (st, [])

/-- A step of the whole server: either a performance datagram arrives
(`perf`) or the 5 ms dispatcher timer fires (`tick`). -/
inductive SysOp where
  | perf (parsed : Option PerfPacket)
  | tick
deriving DecidableEq

/-- Run the server over a timeline of `(wall clock, step)` pairs, collecting
every dispatched event together with its dispatch time. -/
def runSys (st : ServerState) : List (Int × SysOp) → List (Int × Event)
  | [] => []
  | (t, .perf p) :: rest => runSys (handlePerformancePacket st p t) rest
  | (t, .tick) :: rest =>
    let r := tickLoop st.playbackQueue t
    r.2.map (fun e => (t, e)) ++ runSys { st with playbackQueue := r.1 } rest

/-- Fold a list of performance-lane arrivals (payload, wall clock) into the
server state. -/
def applyPerf (st : ServerState) : List (Option PerfPacket × Int) → ServerState
  | [] => st
  | (p, t) :: rest => applyPerf (handlePerformancePacket st p t) rest

/-- Derived view: the latency window right after a packet's sample is
recorded (append, then trim to 200). -/
def newWindow (st : ServerState) (obj : PerfPacket) (now : Int) : List Int :=
  trimWindow (st.latencyHistory ++ [max 0 (now - obj.timestamp.getD now)])

/-- Derived view: the adaptive buffer depth right after a packet's sample
is recorded: `clamp(p95 + 15, 10, 300)`. -/
def newBuffer (st : ServerState) (obj : PerfPacket) (now : Int) : Int :=
  max 10 (min 300 (percentile (newWindow st obj now) 95 + SAFETY_MARGIN_MS))

/-- The queue-ordering relation: nondecreasing dispatch deadline. -/
def leAt (a b : Event) : Prop := a.playAt ≤ b.playAt

instance : DecidableRel leAt :=
  fun a b => inferInstanceAs (Decidable (a.playAt ≤ b.playAt))

/-- A step seen by the playback queue alone: an insertion by the
performance lane, or a dispatcher wake at time `t`. -/
inductive QOp where
  | ins (e : Event)
  | tick (t : Int)
deriving DecidableEq

/-- Run the playback queue over a list of steps, collecting every
dispatched event with its dispatch time. -/
def runQ (q : List Event) : List QOp → List (Int × Event)
  | [] => []
  | .ins e :: rest => runQ (insertEvent q e) rest
  | .tick t :: rest =>
    ((tickLoop q t).2).map (fun e => (t, e)) ++ runQ (tickLoop q t).1 rest

/-- Well-formed step list, tracking the last dispatcher wake `tl`:
wakes happen at nondecreasing times, and every inserted event arrives
before it is due (its deadline is still in the future at the preceding
wake). -/
def opsOK : Int → List QOp → Bool
  | _, [] => true
  | tl, .ins e :: rest => decide (tl < e.playAt) && opsOK tl rest
  | tl, .tick t :: rest => decide (tl ≤ t) && opsOK t rest

/-! ### Lemmas about `insertEvent` -/

theorem insertRevAux_length (e : Event) :
    ∀ l : List Event, (insertRevAux e l).length = l.length + 1 := by
  intro l
  induction l with
  | nil => rfl
  | cons x rest ih =>
    simp only [insertRevAux]
    split
    · simpa using ih
    · simp

theorem insertEvent_length (q : List Event) (e : Event) :
    (insertEvent q e).length = q.length + 1 := by
  simp [insertEvent, insertRevAux_length]

theorem mem_insertRevAux {x e : Event} :
    ∀ {l : List Event}, x ∈ insertRevAux e l ↔ x = e ∨ x ∈ l := by
  intro l
  induction l with
  | nil => simp [insertRevAux]
  | cons y rest ih =>
    simp only [insertRevAux]
    split
    · simp only [List.mem_cons, ih]
      tauto
    · simp only [List.mem_cons]

theorem mem_insertEvent {x e : Event} {q : List Event} :
    x ∈ insertEvent q e ↔ x = e ∨ x ∈ q := by
  simp [insertEvent, mem_insertRevAux]

theorem insertRevAux_eq (e : Event) :
    ∀ l : List Event,
      insertRevAux e l
        = l.takeWhile (fun x => decide (e.playAt < x.playAt))
          ++ e :: l.dropWhile (fun x => decide (e.playAt < x.playAt)) := by
  intro l
  induction l with
  | nil => rfl
  | cons x rest ih =>
    simp only [insertRevAux, List.takeWhile_cons, List.dropWhile_cons, gt_iff_lt]
    by_cases h : e.playAt < x.playAt
    · simp [h, ih]
    · simp [h]

theorem takeWhile_append_all {α : Type} (p : α → Bool) :
    ∀ (l₁ l₂ : List α), (∀ x ∈ l₁, p x = true) →
      (l₁ ++ l₂).takeWhile p = l₁ ++ l₂.takeWhile p := by
  intro l₁ l₂ h
  induction l₁ with
  | nil => simp
  | cons a t ih =>
    have ha : p a = true := h a (by simp)
    simp only [List.cons_append, List.takeWhile_cons, ha, if_true]
    rw [ih (fun x hx => h x (by simp [hx]))]

theorem dropWhile_append_all {α : Type} (p : α → Bool) :
    ∀ (l₁ l₂ : List α), (∀ x ∈ l₁, p x = true) →
      (l₁ ++ l₂).dropWhile p = l₂.dropWhile p := by
  intro l₁ l₂ h
  induction l₁ with
  | nil => simp
  | cons a t ih =>
    have ha : p a = true := h a (by simp)
    simp only [List.cons_append, List.dropWhile_cons, ha, if_true]
    exact ih (fun x hx => h x (by simp [hx]))

theorem takeWhile_eq_nil_all_false {α : Type} (p : α → Bool) :
    ∀ l : List α, (∀ x ∈ l, p x = false) → l.takeWhile p = [] := by
  intro l h
  cases l with
  | nil => rfl
  | cons a t => simp [List.takeWhile_cons, h a (by simp)]

theorem dropWhile_eq_self_all_false {α : Type} (p : α → Bool) :
    ∀ l : List α, (∀ x ∈ l, p x = false) → l.dropWhile p = l := by
  intro l h
  cases l with
  | nil => rfl
  | cons a t => simp [List.dropWhile_cons, h a (by simp)]

/-- On a queue sorted by `playAt`, every event left in the `dropWhile`
suffix has a strictly later deadline than `e`. -/
theorem dropWhile_gt_of_sorted {e : Event} :
    ∀ {q : List Event}, List.Pairwise leAt q →
      ∀ x ∈ q.dropWhile (fun y => decide (y.playAt ≤ e.playAt)),
        e.playAt < x.playAt := by
  intro q
  induction q with
  | nil => intro _ x hx; simp at hx
  | cons y rest ih =>
    intro hs x hx
    rw [List.pairwise_cons] at hs
    by_cases hy : y.playAt ≤ e.playAt
    · simp only [List.dropWhile_cons, decide_eq_true_eq, hy, if_true] at hx
      exact ih hs.2 x hx
    · simp only [List.dropWhile_cons, decide_eq_true_eq, hy, if_false] at hx
      rcases List.mem_cons.mp hx with rfl | hx'
      · omega
      · have := hs.1 x hx'
        unfold leAt at this
        omega

/-- Stable sorted insertion: on a sorted queue, `insertEvent` places the
new event after every entry with `playAt ≤ e.playAt` and before every
entry with a strictly larger `playAt`. -/
theorem insertEvent_eq_of_sorted {q : List Event} {e : Event}
    (hs : List.Pairwise leAt q) :
    insertEvent q e
      = q.takeWhile (fun y => decide (y.playAt ≤ e.playAt))
        ++ e :: q.dropWhile (fun y => decide (y.playAt ≤ e.playAt)) := by
  set ple : Event → Bool := fun y => decide (y.playAt ≤ e.playAt) with hple
  set pgt : Event → Bool := fun y => decide (e.playAt < y.playAt) with hpgt
  have hsplit : q.takeWhile ple ++ q.dropWhile ple = q :=
    List.takeWhile_append_dropWhile _ _
  have htake : ∀ x ∈ q.takeWhile ple, pgt x = false := by
    intro x hx
    have := List.mem_takeWhile_imp hx
    simp only [hple, decide_eq_true_eq] at this
    simp only [hpgt, decide_eq_false_iff_not]
    omega
  have hdrop : ∀ x ∈ q.dropWhile ple, pgt x = true := by
    intro x hx
    have := dropWhile_gt_of_sorted hs x hx
    simp only [hpgt, decide_eq_true_eq]
    exact this
  have hrev : q.reverse
      = (q.dropWhile ple).reverse ++ (q.takeWhile ple).reverse := by
    rw [← List.reverse_append, hsplit]
  have h1 : (q.reverse).takeWhile pgt = (q.dropWhile ple).reverse := by
    rw [hrev, takeWhile_append_all pgt _ _ (by simpa using hdrop),
      takeWhile_eq_nil_all_false pgt _ (by simpa using htake), List.append_nil]
  have h2 : (q.reverse).dropWhile pgt = (q.takeWhile ple).reverse := by
    rw [hrev, dropWhile_append_all pgt _ _ (by simpa using hdrop),
      dropWhile_eq_self_all_false pgt _ (by simpa using htake)]
  have haux : insertRevAux e q.reverse
      = (q.dropWhile ple).reverse ++ e :: (q.takeWhile ple).reverse := by
    rw [insertRevAux_eq, h1, h2]
  rw [insertEvent, haux]
  simp

/-- `insertEvent` preserves the queue ordering invariant. -/
theorem insertEvent_sorted {q : List Event} {e : Event}
    (hs : List.Pairwise leAt q) :
    List.Pairwise leAt (insertEvent q e) := by
  rw [insertEvent_eq_of_sorted hs]
  set ple : Event → Bool := fun y => decide (y.playAt ≤ e.playAt) with hple
  have hsA : List.Pairwise leAt (q.takeWhile ple) :=
    hs.sublist (List.takeWhile_sublist _)
  have hsB : List.Pairwise leAt (q.dropWhile ple) :=
    hs.sublist (List.dropWhile_sublist _)
  have hA : ∀ x ∈ q.takeWhile ple, x.playAt ≤ e.playAt := by
    intro x hx
    have := List.mem_takeWhile_imp hx
    simpa [hple] using this
  have hB : ∀ x ∈ q.dropWhile ple, e.playAt < x.playAt :=
    fun x hx => dropWhile_gt_of_sorted hs x hx
  rw [List.pairwise_append]
  refine ⟨hsA, ?_, ?_⟩
  · rw [List.pairwise_cons]
    exact ⟨fun b hb => le_of_lt (hB b hb), hsB⟩
  · intro a ha b hb
    rcases List.mem_cons.mp hb with rfl | hb'
    · exact hA a ha
    · exact le_trans (hA a ha) (le_of_lt (hB b hb'))

/-! ### Lemmas about the dispatcher wake -/

theorem tickLoop_cons (e : Event) (rest : List Event) (now : Int) :
    tickLoop (e :: rest) now =
      if e.playAt ≤ now then
        if now - e.playAt > LATE_DROP_MS then tickLoop rest now
        else ((tickLoop rest now).1, e :: (tickLoop rest now).2)
      else (e :: rest, []) := rfl

/-- One wake removes a due prefix `removed` from the queue; exactly the
non-late part of it is dispatched, in order. -/
theorem tickLoop_split (now : Int) :
    ∀ q : List Event, ∃ removed : List Event,
      q = removed ++ (tickLoop q now).1 ∧
      (tickLoop q now).2
        = removed.filter (fun e => decide (now - e.playAt ≤ LATE_DROP_MS)) ∧
      ∀ e ∈ removed, e.playAt ≤ now := by
  intro q
  induction q with
  | nil => exact ⟨[], rfl, rfl, by simp⟩
  | cons e rest ih =>
    rw [tickLoop_cons]
    by_cases h1 : e.playAt ≤ now
    · obtain ⟨rem, hq, hd, hle⟩ := ih
      by_cases h2 : now - e.playAt > LATE_DROP_MS
      · refine ⟨e :: rem, ?_, ?_, ?_⟩
        · simp only [if_pos h1, if_pos h2, List.cons_append]
          exact congrArg _ hq
        · simp only [if_pos h1, if_pos h2, List.filter_cons]
          have : ¬ (now - e.playAt ≤ LATE_DROP_MS) := by omega
          simp only [this, decide_eq_true_eq, if_false]
          exact hd
        · intro x hx
          rcases List.mem_cons.mp hx with rfl | hx'
          · exact h1
          · exact hle x hx'
      · refine ⟨e :: rem, ?_, ?_, ?_⟩
        · simp only [if_pos h1, if_neg h2, List.cons_append]
          exact congrArg _ hq
        · simp only [if_pos h1, if_neg h2, List.filter_cons]
          have : now - e.playAt ≤ LATE_DROP_MS := by omega
          simp only [this, decide_eq_true_eq, if_true]
          exact congrArg _ hd
        · intro x hx
          rcases List.mem_cons.mp hx with rfl | hx'
          · exact h1
          · exact hle x hx'
    · exact ⟨[], by simp [if_neg h1], by simp [if_neg h1], by simp⟩

/-- Every dispatched event is due but not overdue by more than 50 ms. -/
theorem tickLoop_disp_le {now : Int} :
    ∀ {q : List Event} {e : Event}, e ∈ (tickLoop q now).2 →
      e.playAt ≤ now ∧ now ≤ e.playAt + LATE_DROP_MS := by
  intro q
  induction q with
  | nil => intro e h; simp [tickLoop] at h
  | cons x rest ih =>
    intro e h
    rw [tickLoop_cons] at h
    by_cases h1 : x.playAt ≤ now
    · by_cases h2 : now - x.playAt > LATE_DROP_MS
      · simp only [if_pos h1, if_pos h2] at h
        exact ih h
      · simp only [if_pos h1, if_neg h2] at h
        rcases List.mem_cons.mp h with rfl | h'
        · exact ⟨h1, by omega⟩
        · exact ih h'
    · simp [if_neg h1] at h

theorem tickLoop_disp_mem {now : Int} :
    ∀ {q : List Event} {e : Event}, e ∈ (tickLoop q now).2 → e ∈ q := by
  intro q
  induction q with
  | nil => intro e h; simp [tickLoop] at h
  | cons x rest ih =>
    intro e h
    rw [tickLoop_cons] at h
    by_cases h1 : x.playAt ≤ now
    · by_cases h2 : now - x.playAt > LATE_DROP_MS
      · simp only [if_pos h1, if_pos h2] at h
        exact List.mem_cons_of_mem _ (ih h)
      · simp only [if_pos h1, if_neg h2] at h
        rcases List.mem_cons.mp h with rfl | h'
        · exact List.mem_cons_self _ _
        · exact List.mem_cons_of_mem _ (ih h')
    · simp [if_neg h1] at h

theorem tickLoop_rem_mem {now : Int} :
    ∀ {q : List Event} {e : Event}, e ∈ (tickLoop q now).1 → e ∈ q := by
  intro q e h
  obtain ⟨rem, hq, -, -⟩ := tickLoop_split now q
  rw [hq]
  exact List.mem_append_right _ h

/-- On a sorted queue, everything the wake leaves behind is strictly in
the future. -/
theorem tickLoop_rem_gt {now : Int} :
    ∀ {q : List Event}, List.Pairwise leAt q →
      ∀ e ∈ (tickLoop q now).1, now < e.playAt := by
  intro q
  induction q with
  | nil => intro _ e h; simp [tickLoop] at h
  | cons x rest ih =>
    intro hs e h
    rw [List.pairwise_cons] at hs
    rw [tickLoop_cons] at h
    by_cases h1 : x.playAt ≤ now
    · by_cases h2 : now - x.playAt > LATE_DROP_MS
      · simp only [if_pos h1, if_pos h2] at h
        exact ih hs.2 e h
      · simp only [if_pos h1, if_neg h2] at h
        exact ih hs.2 e h
    · simp only [if_neg h1] at h
      rcases List.mem_cons.mp h with rfl | h'
      · omega
      · have := hs.1 e h'
        unfold leAt at this
        omega

theorem tickLoop_rem_sorted {now : Int} {q : List Event}
    (hs : List.Pairwise leAt q) :
    List.Pairwise leAt (tickLoop q now).1 := by
  obtain ⟨rem, hq, -, -⟩ := tickLoop_split now q
  exact (hq ▸ hs).sublist (List.sublist_append_right _ _)

/-! ### Ordering of dispatch times over a run of the queue -/

theorem runQ_time_lb :
    ∀ (ops : List QOp) (q : List Event) (tl : Int),
      opsOK tl ops = true →
      ∀ t e, (t, e) ∈ runQ q ops → tl ≤ t := by
  intro ops
  induction ops with
  | nil => intro q tl _ t e h; simp [runQ] at h
  | cons op rest ih =>
    intro q tl hok t e h
    cases op with
    | ins a =>
      simp only [opsOK, Bool.and_eq_true, decide_eq_true_eq] at hok
      exact ih _ tl hok.2 t e h
    | tick tk =>
      simp only [opsOK, Bool.and_eq_true, decide_eq_true_eq] at hok
      simp only [runQ, List.mem_append] at h
      rcases h with h | h
      · obtain ⟨a, -, ha⟩ := List.mem_map.mp h
        have : tk = t := congrArg Prod.fst ha
        omega
      · have := ih _ tk hok.2 t e h
        omega

theorem runQ_future :
    ∀ (ops : List QOp) (q : List Event) (tl t0 : Int),
      t0 ≤ tl → opsOK tl ops = true → (∀ x ∈ q, t0 < x.playAt) →
      ∀ t e, (t, e) ∈ runQ q ops → t0 < e.playAt := by
  intro ops
  induction ops with
  | nil => intro q tl t0 _ _ _ t e h; simp [runQ] at h
  | cons op rest ih =>
    intro q tl t0 h0 hok hq t e h
    cases op with
    | ins a =>
      simp only [opsOK, Bool.and_eq_true, decide_eq_true_eq] at hok
      refine ih _ tl t0 h0 hok.2 ?_ t e h
      intro x hx
      rcases mem_insertEvent.mp hx with rfl | hx'
      · omega
      · exact hq x hx'
    | tick tk =>
      simp only [opsOK, Bool.and_eq_true, decide_eq_true_eq] at hok
      simp only [runQ, List.mem_append] at h
      rcases h with h | h
      · obtain ⟨a, ha, hpair⟩ := List.mem_map.mp h
        have : a = e := congrArg Prod.snd hpair
        subst this
        exact hq a (tickLoop_disp_mem ha)
      · refine ih _ tk t0 (by omega) hok.2 ?_ t e h
        intro x hx
        exact hq x (tickLoop_rem_mem hx)

/-- C2 (amended): over any run of the playback queue in which dispatcher
wakes happen at nondecreasing times and every inserted event arrives
strictly before its deadline (relative to the preceding wake), dispatch
times are ordered by `playAt`: of two dispatched events, the one with the
smaller scheduled deadline is dispatched no later.  Since a performance
packet's deadline is `timestamp + bufferSizeMs` with the buffer in effect
at its own arrival, timestamp order alone is NOT preserved (see the
counterexample); deadline order is. -/
theorem runQ_dispatch_ordered_by_playAt
    (ops : List QOp) (q : List Event) (tl : Int)
    (hs : List.Pairwise leAt q) (hok : opsOK tl ops = true)
    (t1 t2 : Int) (e1 e2 : Event)
    (h1 : (t1, e1) ∈ runQ q ops) (h2 : (t2, e2) ∈ runQ q ops)
    (hle : e1.playAt ≤ e2.playAt) : t1 ≤ t2 := by
  induction ops generalizing q tl with
  | nil => simp [runQ] at h1
  | cons op rest ih =>
    cases op with
    | ins a =>
      simp only [opsOK, Bool.and_eq_true, decide_eq_true_eq] at hok
      simp only [runQ] at h1 h2
      exact ih _ tl (insertEvent_sorted hs) hok.2 h1 h2
    | tick tk =>
      simp only [opsOK, Bool.and_eq_true, decide_eq_true_eq] at hok
      simp only [runQ, List.mem_append] at h1 h2
      rcases h1 with h1 | h1 <;> rcases h2 with h2 | h2
      · obtain ⟨a, -, ha⟩ := List.mem_map.mp h1
        obtain ⟨b, -, hb⟩ := List.mem_map.mp h2
        have ht1 : tk = t1 := congrArg Prod.fst ha
        have ht2 : tk = t2 := congrArg Prod.fst hb
        omega
      · obtain ⟨a, -, ha⟩ := List.mem_map.mp h1
        have ht1 : tk = t1 := congrArg Prod.fst ha
        have := runQ_time_lb rest _ tk hok.2 t2 e2 h2
        omega
      · obtain ⟨b, hb, hpair⟩ := List.mem_map.mp h2
        have ht2 : tk = t2 := congrArg Prod.fst hpair
        have hbe : b = e2 := congrArg Prod.snd hpair
        subst hbe
        have hdue : b.playAt ≤ tk := (tickLoop_disp_le hb).1
        have hfut : tk < e1.playAt := by
          refine runQ_future rest _ tk tk (le_refl _) hok.2 ?_ t1 e1 h1
          intro x hx
          exact tickLoop_rem_gt hs x hx
        omega
      · exact ih _ tk (tickLoop_rem_sorted hs) hok.2 h1 h2

/-! ### Shape of `handlePerformancePacket` on a successfully parsed packet -/

theorem handle_some_latencyHistory (st : ServerState) (obj : PerfPacket) (now : Int) :
    (handlePerformancePacket st (some obj) now).latencyHistory = newWindow st obj now := by
  obtain ⟨tso, ty, ch, n, v, c, val, pr⟩ := obj
  cases ty <;> simp [handlePerformancePacket, newWindow]

theorem handle_some_buffer (st : ServerState) (obj : PerfPacket) (now : Int) :
    (handlePerformancePacket st (some obj) now).bufferSizeMs = newBuffer st obj now := by
  obtain ⟨tso, ty, ch, n, v, c, val, pr⟩ := obj
  cases ty <;> simp [handlePerformancePacket, newBuffer, newWindow]

theorem handle_some_rtcPerf (st : ServerState) (obj : PerfPacket) (now : Int) :
    (handlePerformancePacket st (some obj) now).rtcPerf = st.rtcPerf + 1 := by
  obtain ⟨tso, ty, ch, n, v, c, val, pr⟩ := obj
  cases ty <;> simp [handlePerformancePacket]

theorem handle_noteOn_queue (st : ServerState) (obj : PerfPacket) (now : Int)
    (h : obj.type = .noteOn) :
    (handlePerformancePacket st (some obj) now).playbackQueue
      = insertEvent
          (insertEvent st.playbackQueue
            ⟨obj.timestamp.getD now + newBuffer st obj now,
             .noteOn (orDefault obj.channel 1) obj.note (orDefault obj.velocity 100)⟩)
          ⟨obj.timestamp.getD now + newBuffer st obj now + 800,
           .noteOff (orDefault obj.channel 1) obj.note⟩ := by
  obtain ⟨tso, ty, ch, n, v, c, val, pr⟩ := obj
  cases ty <;> simp_all [handlePerformancePacket, newBuffer, newWindow]

theorem handle_noteOff_queue (st : ServerState) (obj : PerfPacket) (now : Int)
    (h : obj.type = .noteOff) :
    (handlePerformancePacket st (some obj) now).playbackQueue
      = insertEvent st.playbackQueue
          ⟨obj.timestamp.getD now + newBuffer st obj now,
           .noteOff (orDefault obj.channel 1) obj.note⟩ := by
  obtain ⟨tso, ty, ch, n, v, c, val, pr⟩ := obj
  cases ty <;> simp_all [handlePerformancePacket, newBuffer, newWindow]

theorem handle_cc_queue (st : ServerState) (obj : PerfPacket) (now : Int)
    (h : obj.type = .controlChange) :
    (handlePerformancePacket st (some obj) now).playbackQueue
      = insertEvent st.playbackQueue
          ⟨obj.timestamp.getD now + newBuffer st obj now,
           .cc (orDefault obj.channel 1) obj.control obj.value⟩ := by
  obtain ⟨tso, ty, ch, n, v, c, val, pr⟩ := obj
  cases ty <;> simp_all [handlePerformancePacket, newBuffer, newWindow]

theorem handle_program_queue (st : ServerState) (obj : PerfPacket) (now : Int)
    (h : obj.type = .programChange) :
    (handlePerformancePacket st (some obj) now).playbackQueue
      = insertEvent st.playbackQueue
          ⟨obj.timestamp.getD now + newBuffer st obj now,
           .program (orDefault obj.channel 1) obj.program⟩ := by
  obtain ⟨tso, ty, ch, n, v, c, val, pr⟩ := obj
  cases ty <;> simp_all [handlePerformancePacket, newBuffer, newWindow]

theorem percentile_singleton (x : Int) : percentile [x] 95 = x := by
  simp [percentile, List.insertionSort, List.orderedInsert]

theorem drop_append_singleton {α : Type} (x : α) :
    ∀ (k : Nat) (l : List α), k ≤ l.length → (l ++ [x]).drop k = l.drop k ++ [x] := by
  intro k l
  induction l generalizing k with
  | nil =>
    intro h
    simp only [List.length_nil, Nat.le_zero] at h
    subst h
    rfl
  | cons a t ih =>
    intro h
    cases k with
    | zero => rfl
    | succ j =>
      simp only [List.cons_append, List.drop_succ_cons]
      exact ih j (by simpa using h)

/-- Appending a sample and trimming to 200 keeps the new sample last. -/
theorem trimWindow_append (w : List Int) (x : Int) :
    ∃ pre, trimWindow (w ++ [x]) = pre ++ [x] := by
  unfold trimWindow
  by_cases h : (w ++ [x]).length > 200
  · refine ⟨w.drop ((w ++ [x]).length - 200), ?_⟩
    rw [if_pos h]
    refine drop_append_singleton x _ w ?_
    simp only [List.length_append, List.length_singleton] at h ⊢
    omega
  · exact ⟨w, by rw [if_neg h]⟩

/-! ### Claim theorems -/

/-- C1: in one dispatcher wake at wall clock `now`, the queue loses a due
prefix `removed` before any sink call is made; exactly the events of that
prefix overdue by at most `LATE_DROP_MS` are dispatched (the others are
silently discarded and never reach the sink), every dispatched event
satisfies `playAt ≤ now ≤ playAt + 50`, and the sink receives precisely
the dispatched events in order. -/
theorem dispatcher_window_late_drop (q : List Event) (now : Int) :
    ∃ removed : List Event,
      q = removed ++ (tickLoop q now).1 ∧
      (tickLoop q now).2
        = removed.filter (fun e => decide (now - e.playAt ≤ LATE_DROP_MS)) ∧
      (∀ e ∈ removed, e.playAt ≤ now) ∧
      (∀ e ∈ (tickLoop q now).2,
        e.playAt ≤ now ∧ now ≤ e.playAt + LATE_DROP_MS) ∧
      dispatcherSink q now = ((tickLoop q now).2).map emit := by
  obtain ⟨rem, hq, hd, hle⟩ := tickLoop_split now q
  exact ⟨rem, hq, hd, hle, fun e he => tickLoop_disp_le he, rfl⟩

theorem handle_other_queue (st : ServerState) (obj : PerfPacket) (now : Int)
    (h : obj.type = .other) :
    (handlePerformancePacket st (some obj) now).playbackQueue = st.playbackQueue := by
  obtain ⟨tso, ty, ch, n, v, c, val, pr⟩ := obj
  cases ty <;> simp_all [handlePerformancePacket]

theorem handle_queue_sorted (st : ServerState) (p : Option PerfPacket) (now : Int)
    (hs : List.Pairwise leAt st.playbackQueue) :
    List.Pairwise leAt (handlePerformancePacket st p now).playbackQueue := by
  cases p with
  | none => exact hs
  | some obj =>
    cases hty : obj.type with
    | noteOn =>
      rw [handle_noteOn_queue st obj now hty]
      exact insertEvent_sorted (insertEvent_sorted hs)
    | noteOff =>
      rw [handle_noteOff_queue st obj now hty]
      exact insertEvent_sorted hs
    | controlChange =>
      rw [handle_cc_queue st obj now hty]
      exact insertEvent_sorted hs
    | programChange =>
      rw [handle_program_queue st obj now hty]
      exact insertEvent_sorted hs
    | other =>
      rw [handle_other_queue st obj now hty]
      exact hs

theorem applyPerf_queue_sorted :
    ∀ (ops : List (Option PerfPacket × Int)) (st : ServerState),
      List.Pairwise leAt st.playbackQueue →
      List.Pairwise leAt (applyPerf st ops).playbackQueue := by
  intro ops
  induction ops with
  | nil => intro st hs; exact hs
  | cons op rest ih =>
    intro st hs
    obtain ⟨p, t⟩ := op
    exact ih _ (handle_queue_sorted st p t hs)

/-- C4: inserting into a queue sorted by `playAt` keeps it sorted, and the
new event lands after every entry with `playAt ≤ e.playAt` and before
every entry with a strictly larger `playAt` — ties are broken by insertion
order, so a NoteOff inserted after its NoteOn with the same `playAt`
cannot overtake it.  Moreover every queue reachable from the fresh server
state through performance-lane traffic is sorted. -/
theorem insertEvent_sorted_stable :
    (∀ (q : List Event) (e : Event), List.Pairwise leAt q →
      List.Pairwise leAt (insertEvent q e) ∧
      insertEvent q e
        = q.takeWhile (fun y => decide (y.playAt ≤ e.playAt))
          ++ e :: q.dropWhile (fun y => decide (y.playAt ≤ e.playAt))) ∧
    ∀ ops : List (Option PerfPacket × Int),
      List.Pairwise leAt (applyPerf initState ops).playbackQueue :=
  ⟨fun _ _ hs => ⟨insertEvent_sorted hs, insertEvent_eq_of_sorted hs⟩,
   fun ops => applyPerf_queue_sorted ops initState List.Pairwise.nil⟩

def wq4 : List Event := [⟨5, .noteOn 1 60 100⟩, ⟨7, .cc 1 7 100⟩]

def we4 : Event := ⟨5, .noteOff 1 60⟩

/-- Witness for C4 at a concrete queue: the inserted NoteOff with a tied
`playAt` lands after the NoteOn already present. -/
theorem insertEvent_sorted_stable_witness :
    List.Pairwise leAt (insertEvent wq4 we4) ∧
    insertEvent wq4 we4
      = wq4.takeWhile (fun y => decide (y.playAt ≤ we4.playAt))
        ++ we4 :: wq4.dropWhile (fun y => decide (y.playAt ≤ we4.playAt)) :=
  insertEvent_sorted_stable.1 wq4 we4 (by decide)

/-- C3: right after any latency sample is recorded, `bufferSizeMs` equals
`clamp(p95(window) + 15, 10, 300)` computed over the new (trimmed) window,
where `percentile` reads the element at index `floor(0.95*(len-1))` of the
sorted window; with a previously empty window the new window is the single
sample and the buffer is `clamp(sample + 15, 10, 300)`. -/
theorem buffer_equals_clamped_p95 (st : ServerState) (pkt : PerfPacket) (now : Int) :
    (handlePerformancePacket st (some pkt) now).bufferSizeMs
      = max 10 (min 300
          (percentile (handlePerformancePacket st (some pkt) now).latencyHistory 95
            + SAFETY_MARGIN_MS)) ∧
    (st.latencyHistory = [] →
      (handlePerformancePacket st (some pkt) now).bufferSizeMs
        = max 10 (min 300 (max 0 (now - pkt.timestamp.getD now) + SAFETY_MARGIN_MS))) := by
  constructor
  · rw [handle_some_buffer, handle_some_latencyHistory]
    rfl
  · intro h
    rw [handle_some_buffer]
    unfold newBuffer newWindow
    rw [h]
    simp only [List.nil_append, trimWindow, List.length_singleton]
    rw [if_neg (by omega), percentile_singleton]

def pktS2 : PerfPacket := ⟨some 100, .noteOn, 1, 60, 100, 0, 0, 0⟩

/-- Witness for C3: scenario S2 of the spec — a first packet with
`timestamp = 100` handled at `now = 130` (latency 30) yields
`bufferSizeMs = 45`. -/
theorem buffer_equals_clamped_p95_witness :
    (handlePerformancePacket initState (some pktS2) 130).bufferSizeMs
        = max 10 (min 300 (max 0 ((130 : Int) - pktS2.timestamp.getD 130)
            + SAFETY_MARGIN_MS)) ∧
    (handlePerformancePacket initState (some pktS2) 130).bufferSizeMs = 45 :=
  ⟨(buffer_equals_clamped_p95 initState pktS2 130).2 rfl, by decide⟩

/-- C7: `bufferSizeMs` starts at 40 when the client record is created and
stays within [10, 300] across any sequence of performance-lane arrivals. -/
theorem buffer_depth_invariant :
    initState.bufferSizeMs = 40 ∧
    ∀ ops : List (Option PerfPacket × Int),
      10 ≤ (applyPerf initState ops).bufferSizeMs ∧
        (applyPerf initState ops).bufferSizeMs ≤ 300 := by
  refine ⟨rfl, ?_⟩
  have step : ∀ (st : ServerState) (p : Option PerfPacket) (now : Int),
      10 ≤ st.bufferSizeMs → st.bufferSizeMs ≤ 300 →
      10 ≤ (handlePerformancePacket st p now).bufferSizeMs ∧
        (handlePerformancePacket st p now).bufferSizeMs ≤ 300 := by
    intro st p now h10 h300
    cases p with
    | none => exact ⟨h10, h300⟩
    | some obj =>
      rw [handle_some_buffer]
      unfold newBuffer
      constructor
      · exact le_max_left _ _
      · exact max_le (by omega) (min_le_left _ _)
  have main : ∀ (ops : List (Option PerfPacket × Int)) (st : ServerState),
      10 ≤ st.bufferSizeMs → st.bufferSizeMs ≤ 300 →
      10 ≤ (applyPerf st ops).bufferSizeMs ∧ (applyPerf st ops).bufferSizeMs ≤ 300 := by
    intro ops
    induction ops with
    | nil => intro st h10 h300; exact ⟨h10, h300⟩
    | cons op rest ih =>
      intro st h10 h300
      obtain ⟨p, t⟩ := op
      obtain ⟨s10, s300⟩ := step st p t h10 h300
      exact ih _ s10 s300
  intro ops
  exact main ops initState (by decide) (by decide)

/-- C10: on a performance datagram whose payload fails to parse, the lane
counter `rtcPerf` is still incremented and `lastSeen` updated (both happen
before parsing), while the latency window, the buffer depth and the
playback queue are untouched. -/
theorem perf_parse_failure_effects (st : ServerState) (now : Int) :
    (handlePerformancePacket st none now).rtcPerf = st.rtcPerf + 1 ∧
    (handlePerformancePacket st none now).lastSeen = some now ∧
    (handlePerformancePacket st none now).latencyHistory = st.latencyHistory ∧
    (handlePerformancePacket st none now).bufferSizeMs = st.bufferSizeMs ∧
    (handlePerformancePacket st none now).playbackQueue = st.playbackQueue ∧
    (handlePerformancePacket st none now).wsImmediate = st.wsImmediate :=
  ⟨rfl, rfl, rfl, rfl, rfl, rfl⟩

/-- C5: every performance-lane NoteOn enqueued at deadline `playAt` comes
with a companion safety NoteOff for the same channel and note enqueued at
`playAt + 800`, unconditionally. -/
theorem noteOn_safety_noteOff (st : ServerState) (pkt : PerfPacket) (now : Int)
    (h : pkt.type = .noteOn) :
    (⟨pkt.timestamp.getD now + (handlePerformancePacket st (some pkt) now).bufferSizeMs,
       .noteOn (orDefault pkt.channel 1) pkt.note (orDefault pkt.velocity 100)⟩ : Event)
        ∈ (handlePerformancePacket st (some pkt) now).playbackQueue ∧
    (⟨pkt.timestamp.getD now + (handlePerformancePacket st (some pkt) now).bufferSizeMs + 800,
       .noteOff (orDefault pkt.channel 1) pkt.note⟩ : Event)
        ∈ (handlePerformancePacket st (some pkt) now).playbackQueue := by
  rw [handle_some_buffer, handle_noteOn_queue st pkt now h]
  constructor
  · exact mem_insertEvent.mpr (Or.inr (mem_insertEvent.mpr (Or.inl rfl)))
  · exact mem_insertEvent.mpr (Or.inl rfl)

/-- Witness for C5: scenario S2 — NoteOn with `timestamp = 100` handled at
130 is scheduled at 145, its safety NoteOff at 945. -/
theorem noteOn_safety_noteOff_witness :
    (⟨pktS2.timestamp.getD 130
        + (handlePerformancePacket initState (some pktS2) 130).bufferSizeMs + 800,
       .noteOff (orDefault pktS2.channel 1) pktS2.note⟩ : Event)
      ∈ (handlePerformancePacket initState (some pktS2) 130).playbackQueue ∧
    (⟨945, EvData.noteOff 1 60⟩ : Event)
      ∈ (handlePerformancePacket initState (some pktS2) 130).playbackQueue :=
  ⟨(noteOn_safety_noteOff initState pktS2 130 rfl).2, by decide⟩

/-- C6: the latency sample recorded for a performance packet is
`max(0, now − timestamp)` (it is appended as the last window entry); a
packet without a numeric timestamp is treated as sent at `now` and
records 0; a future-dated timestamp records exactly 0; and every event
the packet enqueues for a recognized type has deadline
`timestamp + bufferSizeMs` with the buffer computed after the sample was
added. -/
theorem perf_latency_sample_and_deadline (st : ServerState) (pkt : PerfPacket) (now : Int) :
    (∃ pre, (handlePerformancePacket st (some pkt) now).latencyHistory
        = pre ++ [max 0 (now - pkt.timestamp.getD now)]) ∧
    (pkt.timestamp = none →
      ∃ pre, (handlePerformancePacket st (some pkt) now).latencyHistory = pre ++ [0]) ∧
    (∀ ts, pkt.timestamp = some ts → now < ts →
      ∃ pre, (handlePerformancePacket st (some pkt) now).latencyHistory = pre ++ [0]) ∧
    (pkt.type ≠ .other →
      ∃ d, (⟨pkt.timestamp.getD now
              + (handlePerformancePacket st (some pkt) now).bufferSizeMs, d⟩ : Event)
          ∈ (handlePerformancePacket st (some pkt) now).playbackQueue) := by
  have base : ∃ pre, (handlePerformancePacket st (some pkt) now).latencyHistory
      = pre ++ [max 0 (now - pkt.timestamp.getD now)] := by
    rw [handle_some_latencyHistory]
    exact trimWindow_append _ _
  refine ⟨base, ?_, ?_, ?_⟩
  · intro h
    obtain ⟨pre, hp⟩ := base
    refine ⟨pre, ?_⟩
    rw [hp, h]
    simp
  · intro ts hts hlt
    obtain ⟨pre, hp⟩ := base
    refine ⟨pre, ?_⟩
    rw [hp, hts]
    have h0 : max 0 (now - (some ts).getD now) = 0 := by
      simp only [Option.getD_some]
      omega
    rw [h0]
  · intro hty
    rw [handle_some_buffer]
    cases hcase : pkt.type with
    | noteOn =>
      rw [handle_noteOn_queue st pkt now hcase]
      exact ⟨_, mem_insertEvent.mpr (Or.inr (mem_insertEvent.mpr (Or.inl rfl)))⟩
    | noteOff =>
      rw [handle_noteOff_queue st pkt now hcase]
      exact ⟨_, mem_insertEvent.mpr (Or.inl rfl)⟩
    | controlChange =>
      rw [handle_cc_queue st pkt now hcase]
      exact ⟨_, mem_insertEvent.mpr (Or.inl rfl)⟩
    | programChange =>
      rw [handle_program_queue st pkt now hcase]
      exact ⟨_, mem_insertEvent.mpr (Or.inl rfl)⟩
    | other => exact absurd hcase hty

def pktFuture : PerfPacket := ⟨some 10100, .noteOn, 1, 60, 100, 0, 0, 0⟩

/-- Witness for C6: a future-dated packet (`timestamp = now + 10000`)
records a latency sample of exactly 0. -/
theorem perf_latency_sample_and_deadline_witness :
    (∃ pre, (handlePerformancePacket initState (some pktFuture) 100).latencyHistory
        = pre ++ [0]) ∧
    (handlePerformancePacket initState (some pktFuture) 100).latencyHistory = [0] :=
  ⟨(perf_latency_sample_and_deadline initState pktFuture 100).2.2.1 10100 rfl (by decide),
   by decide⟩

def ws0 : WsMessage := ⟨.noteOn, 1, 60, 0, 0, 0, 0⟩

/-- C8 counterexample: an immediate-lane noteOn carrying velocity 0
reaches the sink as `note_on(1, 60, 127)`, not with the value from the
message — `message.velocity || 127` replaces a falsy velocity. -/
theorem ws_noteOn_exact_velocity_cex :
    ws0.type = .noteOn ∧ ws0.channel = 1 ∧ ws0.note = 60 ∧ ws0.velocity = 0 ∧
    (handleWsMessage initState (some ws0)).2 = [MidiMsg.note_on 1 60 127] ∧
    (handleWsMessage initState (some ws0)).2 ≠ [MidiMsg.note_on 1 60 0] := by
  decide

/-- C8 (amended): for an immediate-lane noteOn whose channel and velocity
are nonzero (non-falsy), the handler increments `wsImmediate` by exactly
one, synchronously emits `note_on(channel, note, velocity)` with exactly
the message's values, and changes nothing else — in particular the
playback queue is untouched.  A falsy (0) channel is replaced by 1 and a
falsy velocity by 127. -/
theorem ws_noteOn_immediate (st : ServerState) (m : WsMessage)
    (hty : m.type = .noteOn) (hch : m.channel ≠ 0) (hv : m.velocity ≠ 0) :
    (handleWsMessage st (some m)).1
        = { st with wsImmediate := st.wsImmediate + 1 } ∧
    (handleWsMessage st (some m)).2
        = [MidiMsg.note_on m.channel m.note m.velocity] ∧
    (handleWsMessage st (some m)).1.playbackQueue = st.playbackQueue := by
  refine ⟨?_, ?_, ?_⟩ <;> simp [handleWsMessage, hty, orDefault, hch, hv]

def wsS1 : WsMessage := ⟨.noteOn, 1, 60, 100, 0, 0, 0⟩

/-- Witness for C8 (amended): scenario S1 — `{noteOn, 1, 60, 100}` emits
`note_on(1, 60, 100)` and bumps `wsImmediate` to 1. -/
theorem ws_noteOn_immediate_witness :
    (handleWsMessage initState (some wsS1)).1
        = { initState with wsImmediate := initState.wsImmediate + 1 } ∧
    (handleWsMessage initState (some wsS1)).2
        = [MidiMsg.note_on wsS1.channel wsS1.note wsS1.velocity] ∧
    (handleWsMessage initState (some wsS1)).1.playbackQueue = initState.playbackQueue :=
  ws_noteOn_immediate initState wsS1 rfl (by decide) (by decide)

def floodPkt : PerfPacket := ⟨some 0, .noteOn, 1, 60, 100, 0, 0, 0⟩

/-- `n` identical performance-lane noteOn packets folded into the server. -/
def floodState : Nat → ServerState
  | 0 => initState
  | n + 1 => handlePerformancePacket (floodState n) (some floodPkt) 0

theorem floodState_queue_len : ∀ n, (floodState n).playbackQueue.length = 2 * n := by
  intro n
  induction n with
  | zero => rfl
  | succ k ih =>
    show (handlePerformancePacket (floodState k) (some floodPkt) 0).playbackQueue.length
      = 2 * (k + 1)
    rw [handle_noteOn_queue _ _ _ rfl, insertEvent_length, insertEvent_length, ih]
    omega

/-- C9 counterexample: 5001 performance noteOns leave 10002 events in the
playback queue — there is no 10,000-event safety cap and nothing is
dropped at insertion. -/
theorem queue_cap_cex :
    (floodState 5001).playbackQueue.length = 10002 ∧
    10000 < (floodState 5001).playbackQueue.length := by
  have h := floodState_queue_len 5001
  exact ⟨by omega, by omega⟩

/-- C9 (amended): `insertEvent` enforces no size cap: every insertion
grows the playback queue by exactly one and never discards an entry, so
the queue can grow beyond 10,000 events. -/
theorem insertEvent_no_cap (q : List Event) (e : Event) :
    (insertEvent q e).length = q.length + 1 :=
  insertEvent_length q e

def shaperPkt (ts : Int) : PerfPacket := ⟨some ts, .other, 0, 0, 0, 0, 0, 0⟩

def notePkt (ts note : Int) : PerfPacket := ⟨some ts, .noteOn, 1, note, 100, 0, 0, 0⟩

/-- Timeline refuting timestamp-order dispatch: two high-latency packets
inflate the adaptive buffer to 300, then a noteOn `p1` with
`timestamp = 1000` arrives at 1000 and is scheduled at 1300; eighteen
zero-latency packets shrink the window's p95 to 0, so a noteOn `p2` with
`timestamp = 1020` arrives at 1020 with buffer 15 and is scheduled at
1035.  Dispatcher wakes at 1035 and 1300 dispatch both on time. -/
def c2Timeline : List (Int × SysOp) :=
  [(998, .perf (some (shaperPkt 698))),
   (999, .perf (some (shaperPkt 699))),
   (1000, .perf (some (notePkt 1000 60)))]
  ++ (List.range 18).map
      (fun i => ((1001 + i : Int), SysOp.perf (some (shaperPkt (1001 + i)))))
  ++ [(1020, .perf (some (notePkt 1020 62))),
      (1035, .tick),
      (1300, .tick)]

set_option maxRecDepth 100000 in
/-- C2 counterexample: with `p1.timestamp = 1000 ≤ 1020 = p2.timestamp`
and both events dispatched on time (lateness 0, neither late-dropped),
`p1`'s noteOn (note 60) is dispatched at 1300, after `p2`'s noteOn
(note 62) at 1035 — dispatch order does not follow timestamp order when
the adaptive buffer shrinks between the two arrivals. -/
theorem perf_timestamp_order_cex :
    (notePkt 1000 60).timestamp = some 1000 ∧
    (notePkt 1020 62).timestamp = some 1020 ∧
    (1000 : Int) ≤ 1020 ∧
    runSys initState c2Timeline
      = [(1035, ⟨1035, .noteOn 1 62 100⟩), (1300, ⟨1300, .noteOn 1 60 100⟩)] ∧
    ¬ ((1300 : Int) ≤ 1035) := by
  decide

def we2 : Event := ⟨10, .noteOn 1 60 100⟩

def wOps2 : List QOp := [.ins we2, .tick 10]

/-- Witness for the amended C2 ordering theorem at a one-event run. -/
theorem runQ_dispatch_ordered_witness : (10 : Int) ≤ 10 :=
  runQ_dispatch_ordered_by_playAt wOps2 [] 0 List.Pairwise.nil (by decide)
    10 10 we2 we2 (by decide) (by decide) (le_refl _)
